import Mathlib

/-!
Verification development for the flag-metadata index and resolution engine of
`bazelrc-lsp` (`src/bazel_flags.rs`).

The Rust code is shallowly embedded as follows:
* `FlagInfo` records are modelled as a Lean structure (the protobuf-generated
  struct is not part of the sources; its fields are taken from the spec's
  FlagDefinition data model and from the accesses performed in
  `bazel_flags.rs`).
* Rust `HashMap<String, usize>` values that are only ever used through
  `insert`/`get` are modelled as functions `String → Option Nat`
  (`mapInsert` is `HashMap::insert`).
* `HashMap<String, Vec<usize>>` is modelled as an association list with unique
  keys; iteration order (which is unspecified for a Rust `HashMap`) is fixed
  to first-insertion order.
* Rust `&str` operations are modelled on `String.data` (the underlying
  character list): `stripStart` is `str::strip_prefix`, `stripEq` is
  `s.strip_suffix('=').unwrap_or(s)`.
* The `.unwrap()` on `self.flags.get(*i)` is modelled by `Option.get!`
  (which yields a default value where Rust would panic).
-/

namespace Bazelrc

/-- Source span of a token. `stop` models the Rust field `end`
(a reserved word in Lean). -/
structure Span where
  start : Nat
  stop : Nat
deriving DecidableEq, Repr, Inhabited

/-- Rust `Spanned<T>` from the tokenizer: a value together with its source span. -/
abbrev Spanned (α : Type) : Type := α × Span

/-- Modelled from the spec: a flag occurrence (`parser::Flag`, whose source is
not under `src/`): an optional name token and an optional value token,
each with a source span (spec §3, FlagOccurrence). -/
structure Flag where
  name : Option (Spanned String)
  value : Option (Spanned String)
deriving DecidableEq, Repr, Inhabited

/-- Modelled from the spec: a parsed line (`parser::Line`, not under `src/`).
Only the per-line occurrence list is relevant to the merge. -/
structure Line where
  flags : List Flag
deriving DecidableEq, Repr, Inhabited

/-- Modelled from the spec: the protobuf-generated flag definition
(`bazel_flags_proto::FlagInfo`, not under `src/`); fields follow the spec's
FlagDefinition data model (§3) and the accesses in `bazel_flags.rs`. -/
structure FlagInfo where
  name : String
  old_name : Option String := none
  abbreviation : Option String := none
  commands : List String := []
  requires_value : Bool := false
  bazel_versions : List String := []
  metadata_tags : List String := []
  effect_tags : List String := []
  documentation : Option String := none
  documentation_category : Option String := none
deriving DecidableEq, Repr, Inhabited

/-- The `FlagLookupType` enum from `bazel_flags.rs`. -/
inductive FlagLookupType where
  | Normal
  | Abbreviation
  | OldName
deriving DecidableEq, Repr, Inhabited

/-- Functional model of `HashMap<String, usize>::insert`. -/
def mapInsert (m : String → Option Nat) (k : String) (v : Nat) :
    String → Option Nat :=
  fun k' => if k' = k then some v else m k'

/-- Model of `HashMap<String, Vec<usize>>::get` on the association list. -/
def cmdLookup (m : List (String × List Nat)) (k : String) : Option (List Nat) :=
  match m with
  | [] => none
  | p :: t => if p.1 = k then some p.2 else cmdLookup t k

/-- Model of `HashMap<String, Vec<usize>>::insert` on the association list. -/
def cmdInsert (m : List (String × List Nat)) (k : String) (v : List Nat) :
    List (String × List Nat) :=
  match m with
  | [] => [(k, v)]
  | p :: t => if p.1 = k then (k, v) :: t else p :: cmdInsert t k v

/-- Model of `flags_by_commands.entry(c).or_default().push(i)` on the
association-list model. -/
def pushCommand (m : List (String × List Nat)) (c : String) (i : Nat) :
    List (String × List Nat) :=
  match m with
  | [] => [(c, [i])]
  | p :: t => if p.1 = c then (p.1, p.2 ++ [i]) :: t else p :: pushCommand t c i

/-- Rust `Vec::dedup`: remove consecutive duplicate elements. -/
def dedupAdj : List Nat → List Nat
  | [] => []
  | [a] => [a]
  | a :: b :: t => if a = b then dedupAdj (b :: t) else a :: dedupAdj (b :: t)

/-- The version filter of `BazelFlags::from_flags`: a flag is indexed iff
no `bazel_version` is given, or the flag's `bazel_versions` contains it.
(This is the negation of the `continue` condition in the Rust loop.) -/
def passesFilter (bazel_version : Option String) (f : FlagInfo) : Bool :=
  !(bazel_version.isSome && !(f.bazel_versions.any (fun v => some v == bazel_version)))

/-- The three lookup structures accumulated by the indexing loop of
`BazelFlags::from_flags`. -/
structure IndexAcc where
  flags_by_commands : List (String × List Nat)
  flags_by_name : String → Option Nat
  flags_by_abbreviation : String → Option Nat

def initAcc : IndexAcc :=
  { flags_by_commands := [], flags_by_name := fun _ => none,
    flags_by_abbreviation := fun _ => none }

/-- One iteration of the indexing loop of `BazelFlags::from_flags`
(for the flag `f` at slot `i`). -/
def indexStep (bazel_version : Option String) (acc : IndexAcc) (i : Nat)
    (f : FlagInfo) : IndexAcc :=
  if passesFilter bazel_version f then
    { flags_by_name :=
        match f.old_name with
        | some old_name => mapInsert (mapInsert acc.flags_by_name f.name i) old_name i
        | none => mapInsert acc.flags_by_name f.name i,
      flags_by_commands :=
        f.commands.foldl (fun m c => pushCommand m c i) acc.flags_by_commands,
      flags_by_abbreviation :=
        match f.abbreviation with
        | some a => mapInsert acc.flags_by_abbreviation a i
        | none => acc.flags_by_abbreviation }
  else acc

/-- The indexing loop of `BazelFlags::from_flags`
(`for (i, f) in flags.iter().enumerate()`), with `i` threaded explicitly. -/
def indexFlags (bazel_version : Option String) :
    Nat → List FlagInfo → IndexAcc → IndexAcc
  | _, [], acc => acc
  | i, f :: rest, acc =>
      indexFlags bazel_version (i + 1) rest (indexStep bazel_version acc i f)

/-- The `BazelFlags` struct from `bazel_flags.rs`. -/
structure BazelFlags where
  commands : List String
  flags : List FlagInfo
  flags_by_commands : List (String × List Nat)
  flags_by_name : String → Option Nat
  flags_by_abbreviation : String → Option Nat

/-- Embedding of `BazelFlags::from_flags`. -/
def BazelFlags.from_flags (flags : List FlagInfo) (bazel_version : Option String) :
    BazelFlags :=
  let acc := indexFlags bazel_version 0 flags initAcc
  -- The `common` option is the union of all other options:
  -- flatten all slot lists, sort, dedup.
  let common_flags :=
    dedupAdj (List.insertionSort (fun a b => a ≤ b)
      ((acc.flags_by_commands.map Prod.snd).flatten))
  let fbc := cmdInsert acc.flags_by_commands "common" common_flags
  -- `always` reuses the same list (see the comment in the Rust source).
  let fbc2 := cmdInsert fbc "always" common_flags
  let commands := fbc2.map Prod.fst ++ ["import", "try-import"]
  { commands := commands, flags := flags, flags_by_commands := fbc2,
    flags_by_name := acc.flags_by_name,
    flags_by_abbreviation := acc.flags_by_abbreviation }

/-- Rust `str::strip_prefix(pre)` modelled character-wise. -/
def stripStart (pre s : String) : Option String :=
  if s.data.take pre.data.length = pre.data then
    some (String.mk (s.data.drop pre.data.length))
  else none

/-- Rust `s.strip_suffix('=').unwrap_or(s)` from `get_by_invocation`. -/
def stripEq (s : String) : String :=
  match s.data.getLast? with
  | some c => if c = '=' then String.mk s.data.dropLast else s
  | none => s

/-- Embedding of `BazelFlags::get_by_invocation`. -/
def BazelFlags.get_by_invocation (bf : BazelFlags) (s : String) :
    Option (FlagLookupType × FlagInfo) :=
  let stripped := stripEq s
  -- Long names
  match stripStart "--" stripped with
  | some long_name =>
    if long_name.data.head? = some '-' then none
    else
      -- Strip the `no` prefix, if any
      let stripped_no := (stripStart "no" long_name).getD long_name
      (bf.flags_by_name stripped_no).map (fun i =>
        let flag := (bf.flags[i]?).get!
        let is_old := flag.old_name.isSome && flag.old_name == some stripped_no
        let lookup_mode :=
          if is_old then FlagLookupType.OldName else FlagLookupType.Normal
        (lookup_mode, flag))
  | none =>
    -- Short names
    match stripStart "-" stripped with
    | some abbr =>
      if abbr.data.head? = some '-' then none
      else
        (bf.flags_by_abbreviation abbr).map (fun i =>
          (FlagLookupType.Abbreviation, (bf.flags[i]?).get!))
    | none => none

/-- The inner closure of `combine_key_value_flags`, evaluated for
the occurrence `flag` whose following occurrence (if any) is `next?`:
the merged value to attach, or `none` to keep `flag` unchanged. -/
def closureResult (bf : BazelFlags) (flag : Flag) (next? : Option Flag) :
    Option (Spanned String) :=
  match flag.name with
  | none => none
  | some flag_name =>
    match bf.get_by_invocation flag_name.1 with
    | none => none
    | some (lookup_type, info) =>
      if flag.value.isSome || lookup_type == FlagLookupType.Abbreviation then
        -- If we already have an associated value or if the flag was referred
        -- to using its abbreviated name, we don't combine the flag.
        flag.value
      else if info.requires_value then
        -- Combine with the next flag
        match next? with
        | none => none
        | some next_flag =>
          match next_flag.name, next_flag.value with
          | some next_name, some next_value =>
              some (next_name.1 ++ "=" ++ next_value.1,
                    { start := next_name.2.start, stop := next_value.2.stop })
          | some next_name, none => some next_name
          | none, some next_value => some next_value
          | none, none => none
      else none

/-- Whether the closure executes `i += 1`, i.e. consumes the following
occurrence: it does so exactly when the flag resolves, carries no inline
value, was not abbreviated, requires a value, and a next occurrence exists. -/
def consumesNext (bf : BazelFlags) (flag : Flag) (next? : Option Flag) : Bool :=
  match flag.name with
  | none => false
  | some flag_name =>
    match bf.get_by_invocation flag_name.1 with
    | none => false
    | some (lookup_type, info) =>
      if flag.value.isSome || lookup_type == FlagLookupType.Abbreviation then false
      else if info.requires_value then next?.isSome
      else false

/-- The occurrence pushed onto `new_flags` for `flag`:
`closure().map(|v| Flag { name, value: Some(v) }).unwrap_or_else(|| flag.clone())`. -/
def newOcc (bf : BazelFlags) (flag : Flag) (next? : Option Flag) : Flag :=
  match closureResult bf flag next? with
  | some v => { name := flag.name, value := some v }
  | none => flag

/-- The per-line `while` loop of `combine_key_value_flags`. -/
def combine_line (bf : BazelFlags) : List Flag → List Flag
  | [] => []
  | [flag] => [newOcc bf flag none]
  | flag :: next :: rest =>
    if consumesNext bf flag (some next) then
      newOcc bf flag (some next) :: combine_line bf rest
    else
      newOcc bf flag (some next) :: combine_line bf (next :: rest)

/-- Embedding of `combine_key_value_flags` (the in-place mutation of `lines` is modelled
by returning the new line list). -/
def combine_key_value_flags (lines : List Line) (bazel_flags : BazelFlags) :
    List Line :=
  lines.map (fun l => { l with flags := combine_line bazel_flags l.flags })

/-! ### Characterization of the name and abbreviation maps -/

/-- Specification-side view of the name registrations performed by the
indexing loop, in execution order: for each indexed flag at slot `i`, its
canonical name, then (if present) its alias (`old_name`). -/
def nameRegsFrom (bazel_version : Option String) :
    Nat → List FlagInfo → List (String × Nat)
  | _, [] => []
  | i, f :: rest =>
    (if passesFilter bazel_version f then
      (f.name, i) :: (match f.old_name with
        | some o => [(o, i)]
        | none => [])
    else []) ++ nameRegsFrom bazel_version (i + 1) rest

/-- Specification-side view of the abbreviation registrations performed by
the indexing loop, in execution order. -/
def abbrevRegsFrom (bazel_version : Option String) :
    Nat → List FlagInfo → List (String × Nat)
  | _, [] => []
  | i, f :: rest =>
    (if passesFilter bazel_version f then
      (match f.abbreviation with
        | some a => [(a, i)]
        | none => [])
    else []) ++ abbrevRegsFrom bazel_version (i + 1) rest

/-- The slot that a last-write-wins sequence of insertions assigns to a key. -/
def lastWins : List (String × Nat) → String → Option Nat
  | [], _ => none
  | p :: t, k =>
    match lastWins t k with
    | some i => some i
    | none => if p.1 = k then some p.2 else none

theorem lastWins_append (l₁ l₂ : List (String × Nat)) (k : String) :
    lastWins (l₁ ++ l₂) k =
      match lastWins l₂ k with
      | some i => some i
      | none => lastWins l₁ k := by
  induction l₁ with
  | nil =>
    show lastWins l₂ k = _
    cases lastWins l₂ k <;> rfl
  | cons p t ih =>
    rw [List.cons_append]
    simp only [lastWins]
    rw [ih]
    cases h2 : lastWins l₂ k <;> cases h1 : lastWins t k <;> rfl

theorem lastWins_mem {l : List (String × Nat)} {k : String} {i : Nat}
    (h : lastWins l k = some i) : (k, i) ∈ l := by
  induction l with
  | nil => cases h
  | cons p t ih =>
    simp only [lastWins] at h
    cases ht : lastWins t k with
    | some j =>
      rw [ht] at h
      cases h
      exact List.mem_cons_of_mem _ (ih ht)
    | none =>
      rw [ht] at h
      by_cases hp : p.1 = k
      · rw [if_pos hp] at h
        cases h
        have : p = (k, p.2) := by
          cases p
          simp_all
        rw [this]
        exact List.mem_cons_self _ _
      · rw [if_neg hp] at h
        cases h

theorem lastWins_eq_of_unique {l : List (String × Nat)} {k : String} {i : Nat}
    (hmem : (k, i) ∈ l) (huniq : ∀ p ∈ l, p.1 = k → p.2 = i) :
    lastWins l k = some i := by
  induction l with
  | nil => cases hmem
  | cons p t ih =>
    simp only [lastWins]
    cases ht : lastWins t k with
    | some j =>
      have hj : j = i :=
        huniq (k, j) (List.mem_cons_of_mem _ (lastWins_mem ht)) rfl
      rw [hj]
    | none =>
      rcases List.mem_cons.mp hmem with heq | hmem'
      · rw [← heq]
        simp
      · have := ih hmem' (fun q hq => huniq q (List.mem_cons_of_mem _ hq))
        rw [this] at ht
        cases ht

theorem flags_by_name_indexFlags (bazel_version : Option String) :
    ∀ (fs : List FlagInfo) (i : Nat) (acc : IndexAcc) (k : String),
    (indexFlags bazel_version i fs acc).flags_by_name k =
      match lastWins (nameRegsFrom bazel_version i fs) k with
      | some j => some j
      | none => acc.flags_by_name k := by
  intro fs
  induction fs with
  | nil => intro i acc k; rfl
  | cons f t ih =>
    intro i acc k
    show (indexFlags bazel_version (i + 1) t (indexStep bazel_version acc i f)).flags_by_name k = _
    rw [ih]
    show _ = match lastWins ((if passesFilter bazel_version f then
        (f.name, i) :: (match f.old_name with
          | some o => [(o, i)]
          | none => []) else []) ++ nameRegsFrom bazel_version (i + 1) t) k with
      | some j => some j
      | none => acc.flags_by_name k
    rw [lastWins_append]
    cases lastWins (nameRegsFrom bazel_version (i + 1) t) k with
    | some j => rfl
    | none =>
      show (indexStep bazel_version acc i f).flags_by_name k = _
      unfold indexStep
      cases hp : passesFilter bazel_version f with
      | false => simp only [Bool.false_eq_true, if_false, lastWins]
      | true =>
        simp only [if_true]
        cases ho : f.old_name with
        | none =>
          simp only [lastWins, mapInsert]
          by_cases hk : f.name = k
          · rw [if_pos hk, if_pos hk.symm]
          · rw [if_neg hk, if_neg (fun h => hk h.symm)]
        | some o =>
          simp only [lastWins, mapInsert]
          by_cases hko : o = k
          · rw [if_pos hko, if_pos hko.symm]
          · rw [if_neg hko, if_neg (fun h => hko h.symm)]
            by_cases hkn : f.name = k
            · rw [if_pos hkn, if_pos hkn.symm]
            · rw [if_neg hkn, if_neg (fun h => hkn h.symm)]

theorem flags_by_abbrev_indexFlags (bazel_version : Option String) :
    ∀ (fs : List FlagInfo) (i : Nat) (acc : IndexAcc) (k : String),
    (indexFlags bazel_version i fs acc).flags_by_abbreviation k =
      match lastWins (abbrevRegsFrom bazel_version i fs) k with
      | some j => some j
      | none => acc.flags_by_abbreviation k := by
  intro fs
  induction fs with
  | nil => intro i acc k; rfl
  | cons f t ih =>
    intro i acc k
    show (indexFlags bazel_version (i + 1) t (indexStep bazel_version acc i f)).flags_by_abbreviation k = _
    rw [ih]
    show _ = match lastWins ((if passesFilter bazel_version f then
        (match f.abbreviation with
          | some a => [(a, i)]
          | none => []) else []) ++ abbrevRegsFrom bazel_version (i + 1) t) k with
      | some j => some j
      | none => acc.flags_by_abbreviation k
    rw [lastWins_append]
    cases lastWins (abbrevRegsFrom bazel_version (i + 1) t) k with
    | some j => rfl
    | none =>
      show (indexStep bazel_version acc i f).flags_by_abbreviation k = _
      unfold indexStep
      cases hp : passesFilter bazel_version f with
      | false => simp only [Bool.false_eq_true, if_false, lastWins]
      | true =>
        simp only [if_true]
        cases ha : f.abbreviation with
        | none => simp only [lastWins]
        | some a =>
          simp only [lastWins, mapInsert]
          by_cases hka : a = k
          · rw [if_pos hka, if_pos hka.symm]
          · rw [if_neg hka, if_neg (fun h => hka h.symm)]

theorem flags_by_name_from_flags (fs : List FlagInfo) (ver : Option String)
    (k : String) :
    (BazelFlags.from_flags fs ver).flags_by_name k =
      lastWins (nameRegsFrom ver 0 fs) k := by
  show (indexFlags ver 0 fs initAcc).flags_by_name k = _
  rw [flags_by_name_indexFlags]
  cases lastWins (nameRegsFrom ver 0 fs) k <;> rfl

theorem flags_by_abbrev_from_flags (fs : List FlagInfo) (ver : Option String)
    (k : String) :
    (BazelFlags.from_flags fs ver).flags_by_abbreviation k =
      lastWins (abbrevRegsFrom ver 0 fs) k := by
  show (indexFlags ver 0 fs initAcc).flags_by_abbreviation k = _
  rw [flags_by_abbrev_indexFlags]
  cases lastWins (abbrevRegsFrom ver 0 fs) k <;> rfl

theorem mem_nameRegsFrom {ver : Option String} :
    ∀ {fs : List FlagInfo} {i0 : Nat} {p : String × Nat},
    p ∈ nameRegsFrom ver i0 fs ↔
      ∃ j f, fs[j]? = some f ∧ passesFilter ver f = true ∧ p.2 = i0 + j ∧
        (p.1 = f.name ∨ f.old_name = some p.1) := by
  intro fs
  induction fs with
  | nil =>
    intro i0 p
    simp [nameRegsFrom]
  | cons f t ih =>
    intro i0 p
    show p ∈ (if passesFilter ver f then
        (f.name, i0) :: (match f.old_name with
          | some o => [(o, i0)]
          | none => []) else []) ++ nameRegsFrom ver (i0 + 1) t ↔ _
    rw [List.mem_append]
    constructor
    · rintro (hhd | htl)
      · cases hp : passesFilter ver f with
        | false => rw [hp] at hhd; cases hhd
        | true =>
          rw [hp] at hhd
          simp only [if_true] at hhd
          rcases List.mem_cons.mp hhd with heq | halias
          · refine ⟨0, f, by simp, hp, ?_, ?_⟩
            · simp [heq]
            · left; rw [heq]
          · cases ho : f.old_name with
            | none => rw [ho] at halias; cases halias
            | some o =>
              rw [ho] at halias
              rcases List.mem_cons.mp halias with heq | h
              · refine ⟨0, f, by simp, hp, ?_, ?_⟩
                · simp [heq]
                · right; rw [heq, ho]
              · cases h
      · rcases ih.mp htl with ⟨j, g, hj, hpass, h2, h1⟩
        exact ⟨j + 1, g, by simpa using hj, hpass, by omega, h1⟩
    · rintro ⟨j, g, hj, hpass, h2, h1⟩
      cases j with
      | zero =>
        have hg : g = f := by simpa using hj.symm
        subst hg
        left
        rw [hpass]
        simp only [if_true]
        have hp2 : p.2 = i0 := by omega
        rcases h1 with h1 | h1
        · have : p = (g.name, i0) := by
            cases p; simp_all
          rw [this]
          exact List.mem_cons_self _ _
        · cases ho : g.old_name with
          | none => rw [ho] at h1; cases h1
          | some o =>
            rw [ho] at h1
            have hop : o = p.1 := by simpa using h1
            apply List.mem_cons_of_mem
            have hpo : p = (o, i0) := by
              cases p
              simp_all
            rw [hpo]
            exact List.mem_cons_self _ _
      | succ j =>
        right
        exact ih.mpr ⟨j, g, by simpa using hj, hpass, by omega, h1⟩

theorem mem_abbrevRegsFrom {ver : Option String} :
    ∀ {fs : List FlagInfo} {i0 : Nat} {p : String × Nat},
    p ∈ abbrevRegsFrom ver i0 fs ↔
      ∃ j f, fs[j]? = some f ∧ passesFilter ver f = true ∧ p.2 = i0 + j ∧
        f.abbreviation = some p.1 := by
  intro fs
  induction fs with
  | nil =>
    intro i0 p
    simp [abbrevRegsFrom]
  | cons f t ih =>
    intro i0 p
    show p ∈ (if passesFilter ver f then
        (match f.abbreviation with
          | some a => [(a, i0)]
          | none => []) else []) ++ abbrevRegsFrom ver (i0 + 1) t ↔ _
    rw [List.mem_append]
    constructor
    · rintro (hhd | htl)
      · cases hp : passesFilter ver f with
        | false => rw [hp] at hhd; cases hhd
        | true =>
          rw [hp] at hhd
          simp only [if_true] at hhd
          cases ha : f.abbreviation with
          | none => rw [ha] at hhd; cases hhd
          | some a =>
            rw [ha] at hhd
            rcases List.mem_cons.mp hhd with heq | h
            · refine ⟨0, f, by simp, hp, by simp [heq], by rw [heq, ha]⟩
            · cases h
      · rcases ih.mp htl with ⟨j, g, hj, hpass, h2, h1⟩
        exact ⟨j + 1, g, by simpa using hj, hpass, by omega, h1⟩
    · rintro ⟨j, g, hj, hpass, h2, h1⟩
      cases j with
      | zero =>
        have hg : g = f := by simpa using hj.symm
        subst hg
        left
        rw [hpass]
        simp only [if_true]
        cases ha : g.abbreviation with
        | none => rw [ha] at h1; cases h1
        | some a =>
          rw [ha] at h1
          have hap : a = p.1 := by simpa using h1
          have hpa : p = (a, i0) := by
            cases p
            simp_all
          rw [hpa]
          exact List.mem_cons_self _ _
      | succ j =>
        right
        exact ih.mpr ⟨j, g, by simpa using hj, hpass, by omega, h1⟩

/-- If exactly one indexed flag registers the name `N` (at slot `i`), the
name map of the built index maps `N` to `i`. -/
theorem name_map_unique (fs : List FlagInfo) (ver : Option String) (i : Nat)
    (f : FlagInfo) (N : String)
    (hf : fs[i]? = some f) (hp : passesFilter ver f = true) (hN : f.name = N)
    (huniq : ∀ j g, fs[j]? = some g → passesFilter ver g = true →
      (g.name = N ∨ g.old_name = some N) → j = i) :
    (BazelFlags.from_flags fs ver).flags_by_name N = some i := by
  rw [flags_by_name_from_flags]
  apply lastWins_eq_of_unique
  · exact mem_nameRegsFrom.mpr ⟨i, f, hf, hp, by omega, Or.inl hN.symm⟩
  · intro p hpmem hpk
    rcases mem_nameRegsFrom.mp hpmem with ⟨j, g, hj, hgpass, h2, h1⟩
    have : j = i := by
      apply huniq j g hj hgpass
      rcases h1 with h1 | h1
      · left; rw [← h1, hpk]
      · right; rw [h1, hpk]
    omega

/-- If exactly one indexed flag registers the abbreviation `A` (at slot `i`),
the abbreviation map of the built index maps `A` to `i`. -/
theorem abbrev_map_unique (fs : List FlagInfo) (ver : Option String) (i : Nat)
    (f : FlagInfo) (A : String)
    (hf : fs[i]? = some f) (hp : passesFilter ver f = true)
    (hA : f.abbreviation = some A)
    (huniq : ∀ j g, fs[j]? = some g → passesFilter ver g = true →
      g.abbreviation = some A → j = i) :
    (BazelFlags.from_flags fs ver).flags_by_abbreviation A = some i := by
  rw [flags_by_abbrev_from_flags]
  apply lastWins_eq_of_unique
  · exact mem_abbrevRegsFrom.mpr ⟨i, f, hf, hp, by omega, hA⟩
  · intro p hpmem hpk
    rcases mem_abbrevRegsFrom.mp hpmem with ⟨j, g, hj, hgpass, h2, h1⟩
    have : j = i := by
      apply huniq j g hj hgpass
      rw [h1, hpk]
    omega

/-! ### Resolution lemmas -/

theorem data_append (s t : String) : (s ++ t).data = s.data ++ t.data := rfl

theorem stripEq_of_getLast_ne {s : String} (h : s.data.getLast? ≠ some '=') :
    stripEq s = s := by
  unfold stripEq
  cases hl : s.data.getLast? with
  | none => rfl
  | some c =>
    have hc : ¬ c = '=' := fun hcc => h (by rw [hl, hcc])
    show (if c = '=' then String.mk s.data.dropLast else s) = s
    rw [if_neg hc]

theorem stripEq_pre_append (pre N : String)
    (hpre : pre.data.getLast? ≠ some '=')
    (hN : N.data.getLast? ≠ some '=') :
    stripEq (pre ++ N) = pre ++ N := by
  apply stripEq_of_getLast_ne
  rw [data_append]
  cases hd : N.data with
  | nil => rw [List.append_nil]; exact hpre
  | cons c t =>
    rw [List.getLast?_append_of_ne_nil _ (by simp)]
    rw [← hd]
    exact hN

theorem stripStart_append (pre s : String) : stripStart pre (pre ++ s) = some s := by
  unfold stripStart
  rw [data_append, List.take_left, if_pos rfl, List.drop_left]

theorem stripStart_two_dash_of_head_ne {A : String} (h : A.data.head? ≠ some '-') :
    stripStart "--" ("-" ++ A) = none := by
  unfold stripStart
  rw [data_append]
  have hne : ("-".data ++ A.data).take "--".data.length ≠ "--".data := by
    show ('-' :: A.data).take 2 ≠ ['-', '-']
    cases hd : A.data with
    | nil => simp
    | cons c t =>
      rw [hd] at h
      have hc : c ≠ '-' := fun hcc => h (by rw [List.head?_cons, hcc])
      simp [hc]
  rw [if_neg hne]

theorem resolve_long (bf : BazelFlags) (N : String) (i : Nat) (f : FlagInfo)
    (hh : N.data.head? ≠ some '-')
    (hno : stripStart "no" N = none)
    (heq : N.data.getLast? ≠ some '=')
    (hmap : bf.flags_by_name N = some i)
    (hflag : bf.flags[i]? = some f) :
    bf.get_by_invocation ("--" ++ N) =
      some (if f.old_name.isSome && f.old_name == some N then FlagLookupType.OldName
            else FlagLookupType.Normal, f) := by
  simp only [BazelFlags.get_by_invocation]
  rw [stripEq_pre_append _ _ (by decide) heq]
  rw [stripStart_append]
  simp only [if_neg hh, hno, Option.getD_none, hmap, Option.map_some', hflag]
  rfl

theorem resolve_short (bf : BazelFlags) (A : String) (i : Nat) (f : FlagInfo)
    (hh : A.data.head? ≠ some '-')
    (heq : A.data.getLast? ≠ some '=')
    (hmap : bf.flags_by_abbreviation A = some i)
    (hflag : bf.flags[i]? = some f) :
    bf.get_by_invocation ("-" ++ A) = some (FlagLookupType.Abbreviation, f) := by
  simp only [BazelFlags.get_by_invocation]
  rw [stripEq_pre_append _ _ (by decide) heq]
  rw [stripStart_two_dash_of_head_ne hh]
  rw [stripStart_append]
  simp only [if_neg hh, hmap, Option.map_some', hflag]
  rfl

/-! ### Command-map lemmas -/

theorem cmdLookup_cmdInsert_self (m : List (String × List Nat)) (k : String)
    (v : List Nat) : cmdLookup (cmdInsert m k v) k = some v := by
  induction m with
  | nil => simp [cmdInsert, cmdLookup]
  | cons p t ih =>
    unfold cmdInsert
    by_cases hp : p.1 = k
    · rw [if_pos hp]
      simp [cmdLookup]
    · rw [if_neg hp]
      unfold cmdLookup
      rw [if_neg hp]
      exact ih

theorem cmdLookup_cmdInsert_ne (m : List (String × List Nat)) (k : String)
    (v : List Nat) (k' : String) (h : k' ≠ k) :
    cmdLookup (cmdInsert m k v) k' = cmdLookup m k' := by
  induction m with
  | nil =>
    simp [cmdInsert, cmdLookup]
    exact fun hh => h hh.symm
  | cons p t ih =>
    unfold cmdInsert
    by_cases hp : p.1 = k
    · rw [if_pos hp]
      unfold cmdLookup
      rw [if_neg (fun hh => h hh.symm), if_neg (by rw [hp]; exact fun hh => h hh.symm)]
    · rw [if_neg hp]
      unfold cmdLookup
      by_cases hpk : p.1 = k' <;> simp [hpk, ih]

theorem mem_cmdInsert {m : List (String × List Nat)} {k : String}
    {v : List Nat} {p : String × List Nat} (h : p ∈ cmdInsert m k v) :
    p.2 = v ∨ p ∈ m := by
  induction m with
  | nil =>
    simp [cmdInsert] at h
    rw [h]
    left
    rfl
  | cons q t ih =>
    unfold cmdInsert at h
    by_cases hq : q.1 = k
    · rw [if_pos hq] at h
      rcases List.mem_cons.mp h with heq | h
      · left; rw [heq]
      · right; exact List.mem_cons_of_mem _ h
    · rw [if_neg hq] at h
      rcases List.mem_cons.mp h with heq | h
      · right; rw [heq]; exact List.mem_cons_self _ _
      · rcases ih h with h | h
        · left; exact h
        · right; exact List.mem_cons_of_mem _ h

theorem cmdLookup_mem {m : List (String × List Nat)} {k : String} {l : List Nat}
    (h : cmdLookup m k = some l) : (k, l) ∈ m := by
  induction m with
  | nil => cases h
  | cons p t ih =>
    unfold cmdLookup at h
    by_cases hp : p.1 = k
    · rw [if_pos hp] at h
      cases h
      have : p = (k, p.2) := by
        cases p
        simp_all
      rw [← hp]
      cases p
      simp_all
    · rw [if_neg hp] at h
      exact List.mem_cons_of_mem _ (ih h)

theorem mem_pushCommand {m : List (String × List Nat)} {c : String} {i : Nat}
    {p : String × List Nat} {x : Nat}
    (hp : p ∈ pushCommand m c i) (hx : x ∈ p.2) :
    (∃ q ∈ m, q.1 = p.1 ∧ x ∈ q.2) ∨ (x = i ∧ p.1 = c) := by
  induction m with
  | nil =>
    simp [pushCommand] at hp
    rw [hp] at hx ⊢
    simp at hx
    right
    exact ⟨hx, rfl⟩
  | cons q t ih =>
    unfold pushCommand at hp
    by_cases hq : q.1 = c
    · rw [if_pos hq] at hp
      rcases List.mem_cons.mp hp with heq | hp
      · rw [heq] at hx
        simp at hx
        rcases hx with hx | hx
        · left; exact ⟨q, List.mem_cons_self _ _, by rw [heq], hx⟩
        · right; exact ⟨hx, by rw [heq]; exact hq⟩
      · left; exact ⟨p, List.mem_cons_of_mem _ hp, rfl, hx⟩
    · rw [if_neg hq] at hp
      rcases List.mem_cons.mp hp with heq | hp
      · left; exact ⟨q, List.mem_cons_self _ _, by rw [heq], by rw [heq] at hx; exact hx⟩
      · rcases ih hp with ⟨q', hq', h1, h2⟩ | h
        · left; exact ⟨q', List.mem_cons_of_mem _ hq', h1, h2⟩
        · right; exact h

theorem mem_pushCommands {cs : List String} :
    ∀ {m : List (String × List Nat)} {i : Nat} {p : String × List Nat} {x : Nat},
    p ∈ cs.foldl (fun m c => pushCommand m c i) m → x ∈ p.2 →
    (∃ q ∈ m, q.1 = p.1 ∧ x ∈ q.2) ∨ (x = i ∧ p.1 ∈ cs) := by
  induction cs with
  | nil =>
    intro m i p x hp hx
    left
    exact ⟨p, hp, rfl, hx⟩
  | cons c cs ih =>
    intro m i p x hp hx
    rcases ih hp hx with ⟨q, hq, h1, h2⟩ | ⟨h1, h2⟩
    · rcases mem_pushCommand hq h2 with ⟨q', hq', h1', h2'⟩ | ⟨h1', h2'⟩
      · left; exact ⟨q', hq', by rw [h1', h1], h2'⟩
      · right; exact ⟨h1', by rw [← h1, h2']; exact List.mem_cons_self _ _⟩
    · right; exact ⟨h1, List.mem_cons_of_mem _ h2⟩

theorem mem_cmds_indexFlags {ver : Option String} :
    ∀ {fs : List FlagInfo} {i0 : Nat} {acc : IndexAcc} {p : String × List Nat}
      {x : Nat},
    p ∈ (indexFlags ver i0 fs acc).flags_by_commands → x ∈ p.2 →
    (∃ q ∈ acc.flags_by_commands, q.1 = p.1 ∧ x ∈ q.2) ∨
    (∃ j g, fs[j]? = some g ∧ passesFilter ver g = true ∧ x = i0 + j ∧
      p.1 ∈ g.commands) := by
  intro fs
  induction fs with
  | nil =>
    intro i0 acc p x hp hx
    left
    exact ⟨p, hp, rfl, hx⟩
  | cons f t ih =>
    intro i0 acc p x hp hx
    rcases ih hp hx with ⟨q, hq, h1, h2⟩ | ⟨j, g, hj, hpass, hx2, hc⟩
    · unfold indexStep at hq
      cases hf : passesFilter ver f with
      | false =>
        rw [hf] at hq
        simp only [Bool.false_eq_true, if_false] at hq
        left
        exact ⟨q, hq, h1, h2⟩
      | true =>
        rw [hf] at hq
        simp only [if_true] at hq
        rcases mem_pushCommands hq h2 with ⟨q', hq', h1', h2'⟩ | ⟨h1', h2'⟩
        · left; exact ⟨q', hq', by rw [h1', h1], h2'⟩
        · right
          refine ⟨0, f, by simp, hf, by omega, ?_⟩
          rw [← h1]
          exact h2'
    · right
      exact ⟨j + 1, g, by simpa using hj, hpass, by omega, hc⟩

/-! ### Sorting and dedup lemmas -/

theorem mem_dedupAdj : ∀ {l : List Nat} {x : Nat}, x ∈ dedupAdj l ↔ x ∈ l := by
  intro l
  induction l with
  | nil => intro x; simp [dedupAdj]
  | cons a t ih =>
    intro x
    cases t with
    | nil => simp [dedupAdj]
    | cons b t2 =>
      unfold dedupAdj
      by_cases hab : a = b
      · rw [if_pos hab, ih, hab]
        simp [List.mem_cons]
      · rw [if_neg hab]
        simp [List.mem_cons, ih]

theorem head?_dedupAdj : ∀ {b : Nat} {t : List Nat},
    (dedupAdj (b :: t)).head? = some b := by
  intro b t
  induction t generalizing b with
  | nil => rfl
  | cons c t2 ih =>
    unfold dedupAdj
    by_cases hbc : b = c
    · rw [if_pos hbc, hbc]
      exact ih
    · rw [if_neg hbc]
      rfl

theorem chain_lt_dedupAdj : ∀ {l : List Nat},
    l.Sorted (· ≤ ·) → List.Chain' (· < ·) (dedupAdj l) := by
  intro l
  induction l with
  | nil => intro _; simp [dedupAdj]
  | cons a t ih =>
    intro hs
    have hs' : t.Sorted (· ≤ ·) := hs.of_cons
    cases t with
    | nil => simp [dedupAdj]
    | cons b t2 =>
      unfold dedupAdj
      by_cases hab : a = b
      · rw [if_pos hab]
        exact ih hs'
      · rw [if_neg hab]
        apply List.Chain'.cons' (ih hs')
        intro y hy
        rw [head?_dedupAdj] at hy
        have hb : b = y := by simpa using hy
        have hle : a ≤ b := (List.sorted_cons.mp hs).1 b (List.mem_cons_self _ _)
        rw [← hb]
        exact lt_of_le_of_ne hle hab

theorem sorted_dedupAdj {l : List Nat} (h : l.Sorted (· ≤ ·)) :
    (dedupAdj l).Sorted (· ≤ ·) :=
  (List.chain'_iff_pairwise.mp (chain_lt_dedupAdj h)).imp (fun h => le_of_lt h)

theorem nodup_dedupAdj {l : List Nat} (h : l.Sorted (· ≤ ·)) :
    (dedupAdj l).Nodup :=
  (List.chain'_iff_pairwise.mp (chain_lt_dedupAdj h)).imp (fun h => ne_of_lt h)

/-! ### Merge lemmas -/

/-- Condition under which an occurrence is emitted unchanged by the merge,
independently of what follows it: its name is missing or unresolvable, it
already carries an inline value, it was written via its abbreviation, or the
resolved flag does not require a value. -/
def passThru (bf : BazelFlags) (flag : Flag) : Bool :=
  match flag.name with
  | none => true
  | some flag_name =>
    match bf.get_by_invocation flag_name.1 with
    | none => true
    | some (lookup_type, info) =>
      flag.value.isSome || lookup_type == FlagLookupType.Abbreviation ||
        !info.requires_value

theorem newOcc_of_closure_none {bf : BazelFlags} {flag : Flag}
    {next? : Option Flag} (h : closureResult bf flag next? = none) :
    newOcc bf flag next? = flag := by
  unfold newOcc
  rw [h]

theorem newOcc_of_closure_some {bf : BazelFlags} {flag : Flag}
    {next? : Option Flag} {v : Spanned String}
    (h : closureResult bf flag next? = some v) :
    newOcc bf flag next? = { name := flag.name, value := some v } := by
  unfold newOcc
  rw [h]

theorem closureResult_none_name {bf : BazelFlags} {flag : Flag}
    {next? : Option Flag} (hn : flag.name = none) :
    closureResult bf flag next? = none := by
  simp only [closureResult, hn]

theorem closureResult_none_lookup {bf : BazelFlags} {flag : Flag}
    {next? : Option Flag} {fn : Spanned String} (hn : flag.name = some fn)
    (hl : bf.get_by_invocation fn.1 = none) :
    closureResult bf flag next? = none := by
  simp only [closureResult, hn, hl]

theorem closureResult_eq_value {bf : BazelFlags} {flag : Flag}
    {next? : Option Flag} {fn : Spanned String} {lt : FlagLookupType}
    {info : FlagInfo} (hn : flag.name = some fn)
    (hl : bf.get_by_invocation fn.1 = some (lt, info))
    (hc : (flag.value.isSome || lt == FlagLookupType.Abbreviation) = true) :
    closureResult bf flag next? = flag.value := by
  simp only [closureResult, hn, hl]
  rw [if_pos hc]

theorem closureResult_not_required {bf : BazelFlags} {flag : Flag}
    {next? : Option Flag} {fn : Spanned String} {lt : FlagLookupType}
    {info : FlagInfo} (hn : flag.name = some fn)
    (hl : bf.get_by_invocation fn.1 = some (lt, info))
    (hc : (flag.value.isSome || lt == FlagLookupType.Abbreviation) = false)
    (hr : info.requires_value = false) :
    closureResult bf flag next? = none := by
  simp only [closureResult, hn, hl]
  rw [if_neg (by rw [hc]; simp), hr]
  simp

theorem consumesNext_false_of_passThru {bf : BazelFlags} {flag : Flag}
    (h : passThru bf flag = true) (next? : Option Flag) :
    consumesNext bf flag next? = false := by
  unfold passThru at h
  cases hn : flag.name with
  | none => simp only [consumesNext, hn]
  | some fn =>
    simp only [hn] at h
    cases hl : bf.get_by_invocation fn.1 with
    | none => simp only [consumesNext, hn, hl]
    | some p =>
      obtain ⟨lt, info⟩ := p
      simp only [hl] at h
      simp only [consumesNext, hn, hl]
      by_cases hc : (flag.value.isSome || lt == FlagLookupType.Abbreviation) = true
      · rw [if_pos hc]
      · have hcf : (flag.value.isSome || lt == FlagLookupType.Abbreviation) = false :=
          Bool.not_eq_true _ ▸ Bool.eq_false_iff.mpr (fun hh => hc hh)
        have hr : info.requires_value = false := by
          rw [hcf] at h
          simpa using h
        rw [if_neg (by rw [hcf]; simp), hr]
        simp

theorem newOcc_passThru {bf : BazelFlags} {flag : Flag}
    (h : passThru bf flag = true) (next? : Option Flag) :
    newOcc bf flag next? = flag := by
  unfold passThru at h
  cases hn : flag.name with
  | none => exact newOcc_of_closure_none (closureResult_none_name hn)
  | some fn =>
    simp only [hn] at h
    cases hl : bf.get_by_invocation fn.1 with
    | none => exact newOcc_of_closure_none (closureResult_none_lookup hn hl)
    | some p =>
      obtain ⟨lt, info⟩ := p
      simp only [hl] at h
      by_cases hc : (flag.value.isSome || lt == FlagLookupType.Abbreviation) = true
      · rw [newOcc, closureResult_eq_value hn hl hc]
        cases hv : flag.value with
        | none => rfl
        | some v =>
          show ({ name := flag.name, value := some v } : Flag) = flag
          rw [← hv]
      · have hcf : (flag.value.isSome || lt == FlagLookupType.Abbreviation) = false :=
          Bool.eq_false_iff.mpr (fun hh => hc hh)
        have hr : info.requires_value = false := by
          rw [hcf] at h
          simpa using h
        exact newOcc_of_closure_none (closureResult_not_required hn hl hcf hr)

theorem combine_line_cons_passThru (bf : BazelFlags) (flag : Flag)
    (rest : List Flag) (h : passThru bf flag = true) :
    combine_line bf (flag :: rest) = flag :: combine_line bf rest := by
  cases rest with
  | nil =>
    show [newOcc bf flag none] = [flag]
    rw [newOcc_passThru h]
  | cons next t =>
    show (if consumesNext bf flag (some next) = true then
        newOcc bf flag (some next) :: combine_line bf t
      else newOcc bf flag (some next) :: combine_line bf (next :: t)) = _
    rw [consumesNext_false_of_passThru h]
    simp only [Bool.false_eq_true, if_false]
    rw [newOcc_passThru h]

theorem combine_line_single_requires (bf : BazelFlags) (flag : Flag)
    {fn : Spanned String} {lt : FlagLookupType} {info : FlagInfo}
    (hn : flag.name = some fn)
    (hl : bf.get_by_invocation fn.1 = some (lt, info))
    (hc : (flag.value.isSome || lt == FlagLookupType.Abbreviation) = false)
    (hr : info.requires_value = true) :
    combine_line bf [flag] = [flag] := by
  have hclos : closureResult bf flag none = none := by
    simp only [closureResult, hn, hl]
    rw [if_neg (by rw [hc]; simp), hr]
    simp
  show [newOcc bf flag none] = [flag]
  rw [newOcc_of_closure_none hclos]

theorem combine_line_consume (bf : BazelFlags) (flag next : Flag)
    (t : List Flag) {fn : Spanned String} {lt : FlagLookupType} {info : FlagInfo}
    (hn : flag.name = some fn)
    (hl : bf.get_by_invocation fn.1 = some (lt, info))
    (hc : (flag.value.isSome || lt == FlagLookupType.Abbreviation) = false)
    (hr : info.requires_value = true)
    (hne : (next.name.isSome || next.value.isSome) = true) :
    ∃ v, combine_line bf (flag :: next :: t) =
      { name := flag.name, value := some v } :: combine_line bf t := by
  have hcons : consumesNext bf flag (some next) = true := by
    simp only [consumesNext, hn, hl]
    rw [if_neg (by rw [hc]; simp), hr]
    simp
  obtain ⟨v, hv'⟩ : ∃ v, closureResult bf flag (some next) = some v := by
    simp only [closureResult, hn, hl]
    rw [if_neg (by rw [hc]; simp), hr]
    simp only [if_true]
    cases hnn : next.name with
    | some nn =>
      cases next.value <;> exact ⟨_, rfl⟩
    | none =>
      cases hnv : next.value with
      | some nv => exact ⟨_, rfl⟩
      | none =>
        rw [hnn, hnv] at hne
        simp at hne
  refine ⟨v, ?_⟩
  show (if consumesNext bf flag (some next) = true then
      newOcc bf flag (some next) :: combine_line bf t
    else newOcc bf flag (some next) :: combine_line bf (next :: t)) = _
  rw [hcons, if_pos rfl, newOcc_of_closure_some hv']

theorem combine_line_idem (bf : BazelFlags) :
    ∀ (n : Nat) (l : List Flag), l.length ≤ n →
    (∀ f ∈ l, (f.name.isSome || f.value.isSome) = true) →
    combine_line bf (combine_line bf l) = combine_line bf l := by
  intro n
  induction n with
  | zero =>
    intro l hl _
    have hnil : l = [] := List.eq_nil_of_length_eq_zero (Nat.le_zero.mp hl)
    rw [hnil]
    rfl
  | succ n ih =>
    intro l hl hne
    cases l with
    | nil => rfl
    | cons flag rest =>
      by_cases hp : passThru bf flag = true
      · rw [combine_line_cons_passThru bf flag rest hp]
        rw [combine_line_cons_passThru bf flag (combine_line bf rest) hp]
        rw [ih rest (by simp at hl; omega)
          (fun f hf => hne f (List.mem_cons_of_mem _ hf))]
      · obtain ⟨fn, hn⟩ : ∃ fn, flag.name = some fn := by
          cases hnn : flag.name with
          | none =>
            exfalso
            apply hp
            unfold passThru
            rw [hnn]
          | some fn => exact ⟨fn, rfl⟩
        obtain ⟨lt, info, hl'⟩ :
            ∃ lt info, bf.get_by_invocation fn.1 = some (lt, info) := by
          cases hll : bf.get_by_invocation fn.1 with
          | none =>
            exfalso
            apply hp
            unfold passThru
            simp only [hn, hll]
          | some p =>
            obtain ⟨lt0, info0⟩ := p
            exact ⟨lt0, info0, rfl⟩
        have hcond : (flag.value.isSome || lt == FlagLookupType.Abbreviation ||
            !info.requires_value) = false := by
          have : passThru bf flag = false := Bool.eq_false_iff.mpr hp
          unfold passThru at this
          simp only [hn, hl'] at this
          exact this
        have hc : (flag.value.isSome || lt == FlagLookupType.Abbreviation) = false := by
          cases hx : (flag.value.isSome || lt == FlagLookupType.Abbreviation) with
          | false => rfl
          | true => rw [hx] at hcond; simp at hcond
        have hr : info.requires_value = true := by
          rw [hc] at hcond
          simp at hcond
          exact hcond
        cases rest with
        | nil =>
          rw [combine_line_single_requires bf flag hn hl' hc hr]
          rw [combine_line_single_requires bf flag hn hl' hc hr]
        | cons next t =>
          have hnxt := hne next (List.mem_cons_of_mem _ (List.mem_cons_self _ _))
          obtain ⟨v, hcomb⟩ :=
            combine_line_consume bf flag next t hn hl' hc hr hnxt
          rw [hcomb]
          have hp2 : passThru bf { name := flag.name, value := some v } = true := by
            simp [passThru, hn, hl']
          rw [combine_line_cons_passThru bf _ _ hp2]
          rw [ih t (by simp at hl; omega)
            (fun f hf => hne f (List.mem_cons_of_mem _ (List.mem_cons_of_mem _ hf)))]

/-! ### Derived facts about the built index -/

theorem passesFilter_none (f : FlagInfo) : passesFilter none f = true := rfl

theorem passesFilter_some_iff {V : String} {f : FlagInfo} :
    passesFilter (some V) f = true ↔ V ∈ f.bazel_versions := by
  simp [passesFilter, List.any_eq_true]

/-- Every slot stored in any slot list of the final command map originates
from an indexed (version-passing) flag of the catalog. -/
theorem slot_in_from_flags_cmds {fs : List FlagInfo} {ver : Option String}
    {p : String × List Nat} {x : Nat}
    (hp : p ∈ (BazelFlags.from_flags fs ver).flags_by_commands) (hx : x ∈ p.2) :
    ∃ j g, fs[j]? = some g ∧ passesFilter ver g = true ∧ x = j := by
  have hloop : ∀ (q : String × List Nat) (x' : Nat),
      q ∈ (indexFlags ver 0 fs initAcc).flags_by_commands → x' ∈ q.2 →
      ∃ j g, fs[j]? = some g ∧ passesFilter ver g = true ∧ x' = j := by
    intro q x' hq hx'
    rcases mem_cmds_indexFlags hq hx' with ⟨q', hq', _, _⟩ | ⟨j, g, hj, hpass, hx2, _⟩
    · cases hq'
    · exact ⟨j, g, hj, hpass, by omega⟩
  have hu : ∀ x', x' ∈ dedupAdj (List.insertionSort (fun a b => a ≤ b)
      (((indexFlags ver 0 fs initAcc).flags_by_commands.map Prod.snd).flatten)) →
      ∃ j g, fs[j]? = some g ∧ passesFilter ver g = true ∧ x' = j := by
    intro x' hx'
    rw [mem_dedupAdj, List.mem_insertionSort, List.mem_flatten] at hx'
    obtain ⟨l', hl', hxl⟩ := hx'
    obtain ⟨q, hq, hql⟩ := List.mem_map.mp hl'
    exact hloop q x' hq (by rw [hql]; exact hxl)
  simp only [BazelFlags.from_flags] at hp
  rcases mem_cmdInsert hp with h2 | hp2
  · exact hu x (h2 ▸ hx)
  · rcases mem_cmdInsert hp2 with h2 | hp3
    · exact hu x (h2 ▸ hx)
    · exact hloop p x hp3 hx

/-- The canonical-name half of the resolution round trip, for a flag whose
name registration is unique. -/
theorem resolve_canonical_of_unique (fs : List FlagInfo) (ver : Option String)
    (i : Nat) (f : FlagInfo) (N : String)
    (hf : fs[i]? = some f) (hp : passesFilter ver f = true) (hN : f.name = N)
    (hh : N.data.head? ≠ some '-') (hno : stripStart "no" N = none)
    (heq : N.data.getLast? ≠ some '=') (hold : f.old_name ≠ some N)
    (huniq : ∀ j g, fs[j]? = some g → passesFilter ver g = true →
      (g.name = N ∨ g.old_name = some N) → j = i) :
    (BazelFlags.from_flags fs ver).get_by_invocation ("--" ++ N) =
      some (FlagLookupType.Normal, f) := by
  have hmap := name_map_unique fs ver i f N hf hp hN huniq
  have hflag : (BazelFlags.from_flags fs ver).flags[i]? = some f := hf
  rw [resolve_long _ _ _ _ hh hno heq hmap hflag]
  have hfalse : (f.old_name.isSome && f.old_name == some N) = false := by
    cases ho : f.old_name with
    | none => rfl
    | some o =>
      have hne : o ≠ N := fun hON => hold (by rw [ho, hON])
      simp [ho, hne]
  rw [hfalse]
  rfl

/-- Every merged occurrence keeps its original name token. -/
theorem newOcc_shape (bf : BazelFlags) (flag : Flag) (next? : Option Flag) :
    ∃ v, newOcc bf flag next? = { name := flag.name, value := v } := by
  unfold newOcc
  cases closureResult bf flag next? with
  | some v => exact ⟨some v, rfl⟩
  | none => exact ⟨flag.value, rfl⟩

/-- The head of the merge output is the head of the input, possibly with a
new value attached but with the same name token. -/
theorem combine_line_cons_shape (bf : BazelFlags) (flag : Flag)
    (rest : List Flag) :
    ∃ v t', combine_line bf (flag :: rest) =
      { name := flag.name, value := v } :: t' := by
  cases rest with
  | nil =>
    obtain ⟨v, hv⟩ := newOcc_shape bf flag none
    refine ⟨v, [], ?_⟩
    show [newOcc bf flag none] = _
    rw [hv]
  | cons next2 t2 =>
    obtain ⟨v, hv⟩ := newOcc_shape bf flag (some next2)
    by_cases hcs : consumesNext bf flag (some next2) = true
    · refine ⟨v, combine_line bf t2, ?_⟩
      show (if consumesNext bf flag (some next2) = true then
          newOcc bf flag (some next2) :: combine_line bf t2
        else newOcc bf flag (some next2) :: combine_line bf (next2 :: t2)) = _
      rw [if_pos hcs, hv]
    · refine ⟨v, combine_line bf (next2 :: t2), ?_⟩
      show (if consumesNext bf flag (some next2) = true then
          newOcc bf flag (some next2) :: combine_line bf t2
        else newOcc bf flag (some next2) :: combine_line bf (next2 :: t2)) = _
      rw [if_neg hcs, hv]

/-! ### Concrete instances used by witnesses and counterexamples -/

/-- A flag taking a value via a following token (like `--jobs`). -/
def jobsFlag : FlagInfo :=
  { name := "jobs", commands := ["build"], requires_value := true }

/-- A boolean flag with abbreviation `k` (like `--keep_going`). -/
def keepGoingFlag : FlagInfo :=
  { name := "keep_going", abbreviation := some "k", commands := ["build", "test"] }

/-- The index built from the two flags above, with no version filter. -/
def bfJobs : BazelFlags := BazelFlags.from_flags [jobsFlag, keepGoingFlag] none

/-- The merge-example line `--jobs 200 --keep_going` (spec §8). -/
def lineC2 : Line :=
  ⟨[⟨some ("--jobs", ⟨0, 6⟩), none⟩,
    ⟨some ("200", ⟨7, 10⟩), none⟩,
    ⟨some ("--keep_going", ⟨11, 23⟩), none⟩]⟩

/-- A line whose middle occurrence carries neither name nor value. -/
def lineC3 : Line :=
  ⟨[⟨some ("--jobs", ⟨0, 6⟩), none⟩,
    ⟨none, none⟩,
    ⟨some ("200", ⟨7, 10⟩), none⟩]⟩

/-- A flag whose canonical name itself starts with `no`. -/
def noCacheFlag : FlagInfo := { name := "nocache" }

/-- A flag named with a `no` prefix that also has an abbreviation. -/
def noKeepFlag : FlagInfo := { name := "nokeep", abbreviation := some "k" }

/-- A flag with an empty canonical name. -/
def emptyNameFlag : FlagInfo := { name := "" }

/-- Present only in version 1.0. -/
def fx0 : FlagInfo := { name := "x", bazel_versions := ["1.0"] }

/-- A distinct flag with the same canonical name, present in 1.0 and 2.0. -/
def fx1 : FlagInfo :=
  { name := "x", bazel_versions := ["1.0", "2.0"], requires_value := true }

/-- The occurrence `-k=opt`. -/
def flagKOpt : Flag := ⟨some ("-k", ⟨0, 2⟩), some ("opt", ⟨3, 6⟩)⟩

/-- The occurrence `--jobs` (no inline value). -/
def flagJobsOcc : Flag := ⟨some ("--jobs", ⟨7, 13⟩), none⟩

/-- The occurrence `200` (a bare token, parsed as a name). -/
def flag200 : Flag := ⟨some ("200", ⟨14, 17⟩), none⟩

/-! ### Claims -/

/-- C1, counterexample: the catalog consisting of the single indexed flag
`nocache` refutes the claim: resolving `--nocache` strips the `no` prefix,
looks up `cache`, and finds nothing, so it does not return
`(Normal, nocache-flag)`. -/
theorem C1_cex :
    (BazelFlags.from_flags [noCacheFlag] none).get_by_invocation "--nocache" = none ∧
    (none : Option (FlagLookupType × FlagInfo)) ≠
      some (FlagLookupType.Normal, noCacheFlag) := by
  decide

/-- C1 (amended): for every indexed flag `f` with canonical name `N`, if `N`
does not start with `-` or `no` and does not end with `=`, `f`'s own alias
differs from `N`, and no other indexed catalog entry registers the string `N`
(as canonical name or alias), then resolving `--N` returns the Normal
classification together with that exact flag definition. -/
theorem C1_amended (fs : List FlagInfo) (ver : Option String) (i : Nat)
    (f : FlagInfo) (N : String)
    (hf : fs[i]? = some f) (hp : passesFilter ver f = true) (hN : f.name = N)
    (hh : N.data.head? ≠ some '-') (hno : stripStart "no" N = none)
    (heq : N.data.getLast? ≠ some '=') (hold : f.old_name ≠ some N)
    (huniq : ∀ j g, fs[j]? = some g → passesFilter ver g = true →
      (g.name = N ∨ g.old_name = some N) → j = i) :
    (BazelFlags.from_flags fs ver).get_by_invocation ("--" ++ N) =
      some (FlagLookupType.Normal, f) :=
  resolve_canonical_of_unique fs ver i f N hf hp hN hh hno heq hold huniq

/-- C1, witness: the amended theorem applied to the singleton catalog
`[jobsFlag]` at name `jobs`. -/
theorem C1_witness :
    (BazelFlags.from_flags [jobsFlag] none).get_by_invocation ("--" ++ "jobs") =
      some (FlagLookupType.Normal, jobsFlag) :=
  C1_amended [jobsFlag] none 0 jobsFlag "jobs" rfl rfl rfl (by decide) (by decide)
    (by decide) (by decide)
    (by
      intro j g hj hpass hng
      cases j with
      | zero => rfl
      | succ j =>
        rw [List.getElem?_cons_succ] at hj
        simp at hj)

/-- C2, counterexample: on the spec's merge example, the merged occurrences
keep their literal name tokens `--jobs` and `--keep_going`; the claim's
expected names `jobs` and `keep_going` (without dashes) do not match. -/
theorem C2_cex :
    (combine_key_value_flags [lineC2] bfJobs).map
        (fun l => l.flags.map (fun f => f.name.map Prod.fst)) =
      [[some "--jobs", some "--keep_going"]] ∧
    ("--jobs" : String) ≠ "jobs" ∧ ("--keep_going" : String) ≠ "keep_going" := by
  decide

/-- C2 (amended): merging the line `--jobs 200 --keep_going` against a
catalog with `jobs` (requires a following-token value) and `keep_going`
(abbreviation `k`, no value) yields exactly
`[{name:"--jobs", value:"200"}, {name:"--keep_going", value:absent}]`,
the names being the literal occurrence tokens. -/
theorem C2_amended :
    combine_key_value_flags [lineC2] bfJobs =
      [⟨[⟨some ("--jobs", ⟨0, 6⟩), some ("200", ⟨7, 10⟩)⟩,
         ⟨some ("--keep_going", ⟨11, 23⟩), none⟩]⟩] := by
  decide

/-- C3, counterexample: merging is not idempotent on a line containing an
occurrence with neither name nor value: on `--jobs ⟨empty⟩ 200`, the first
merge consumes the empty occurrence without attaching a value, and the
second merge then attaches `200` to `--jobs`. -/
theorem C3_cex :
    combine_key_value_flags (combine_key_value_flags [lineC3] bfJobs) bfJobs ≠
      combine_key_value_flags [lineC3] bfJobs := by
  decide

/-- C3 (amended): on lines in which every occurrence carries a name or a
value (no fully-empty occurrences), running the merge a second time on the
output of the first merge yields the same result as running it once. -/
theorem C3_amended (bf : BazelFlags) (lines : List Line)
    (h : ∀ l ∈ lines, ∀ f ∈ l.flags, (f.name.isSome || f.value.isSome) = true) :
    combine_key_value_flags (combine_key_value_flags lines bf) bf =
      combine_key_value_flags lines bf := by
  unfold combine_key_value_flags
  rw [List.map_map]
  apply List.map_congr_left
  intro l hl
  simp only [Function.comp]
  show ({ flags := combine_line bf (combine_line bf l.flags) } : Line) = _
  rw [combine_line_idem bf l.flags.length l.flags le_rfl (h l hl)]

/-- C3, witness: idempotence on the concrete merge-example line. -/
theorem C3_witness :
    combine_key_value_flags (combine_key_value_flags [lineC2] bfJobs) bfJobs =
      combine_key_value_flags [lineC2] bfJobs :=
  C3_amended bfJobs [lineC2] (by decide)

/-- The list inserted under `common` (and `always`) by `from_flags`: the
sorted, deduplicated flatten of the per-command slot lists built by the
indexing loop. -/
def commonList (fs : List FlagInfo) (ver : Option String) : List Nat :=
  dedupAdj (List.insertionSort (fun a b => a ≤ b)
    (((indexFlags ver 0 fs initAcc).flags_by_commands.map Prod.snd).flatten))

/-- C4: after index construction from any catalog, the slot list stored under
`common` is the sorted, deduplicated union of the slot lists of every real
sub-command (the entries produced by the indexing loop), and the slot list
stored under `always` is exactly the one stored under `common`. -/
theorem C4 (fs : List FlagInfo) (ver : Option String) :
    cmdLookup (BazelFlags.from_flags fs ver).flags_by_commands "common" =
      some (commonList fs ver) ∧
    cmdLookup (BazelFlags.from_flags fs ver).flags_by_commands "always" =
      cmdLookup (BazelFlags.from_flags fs ver).flags_by_commands "common" ∧
    (commonList fs ver).Sorted (· ≤ ·) ∧
    (commonList fs ver).Nodup ∧
    (∀ x, x ∈ commonList fs ver ↔
      ∃ q ∈ (indexFlags ver 0 fs initAcc).flags_by_commands, x ∈ q.2) := by
  have hsorted : (List.insertionSort (fun a b => a ≤ b)
      (((indexFlags ver 0 fs initAcc).flags_by_commands.map Prod.snd).flatten)).Sorted
      (fun a b => a ≤ b) := List.sorted_insertionSort _ _
  have hcommon : cmdLookup (BazelFlags.from_flags fs ver).flags_by_commands
      "common" = some (commonList fs ver) := by
    show cmdLookup (cmdInsert (cmdInsert
        (indexFlags ver 0 fs initAcc).flags_by_commands "common"
        (commonList fs ver)) "always" (commonList fs ver)) "common" = _
    rw [cmdLookup_cmdInsert_ne _ _ _ _ (by decide), cmdLookup_cmdInsert_self]
  have halways : cmdLookup (BazelFlags.from_flags fs ver).flags_by_commands
      "always" = some (commonList fs ver) := by
    show cmdLookup (cmdInsert (cmdInsert
        (indexFlags ver 0 fs initAcc).flags_by_commands "common"
        (commonList fs ver)) "always" (commonList fs ver)) "always" = _
    rw [cmdLookup_cmdInsert_self]
  refine ⟨hcommon, by rw [halways, hcommon], sorted_dedupAdj hsorted,
    nodup_dedupAdj hsorted, ?_⟩
  intro x
  show x ∈ dedupAdj _ ↔ _
  rw [mem_dedupAdj, List.mem_insertionSort, List.mem_flatten]
  constructor
  · rintro ⟨l', hl', hx⟩
    obtain ⟨q, hq, hql⟩ := List.mem_map.mp hl'
    exact ⟨q, hq, by rw [hql]; exact hx⟩
  · rintro ⟨q, hq, hx⟩
    exact ⟨q.2, List.mem_map.mpr ⟨q, hq, rfl⟩, hx⟩

/-- C5, counterexample: with catalog `[fx0, fx1]` (two distinct flags sharing
the canonical name `x`) and no version filter, looking up `x` — the only
identifier `fx0` has (it defines no alias and no abbreviation) — yields slot
1, which holds the different definition `fx1`; so the version-filtered-out
flag `fx0` is not reachable through the maps when no filter is supplied. -/
theorem C5_cex :
    (BazelFlags.from_flags [fx0, fx1] none).flags_by_name "x" = some 1 ∧
    (BazelFlags.from_flags [fx0, fx1] none).flags[1]? = some fx1 ∧
    fx1 ≠ fx0 ∧
    fx0.name = "x" ∧ fx0.old_name = none ∧ fx0.abbreviation = none := by
  decide

/-- C5 (amended): when the index is built with version filter `V`, every flag
whose version set does not contain `V` is absent from the name map, the
abbreviation map and every sub-command slot list, yet still occupies its
original position in the owned flag list; and — provided no other catalog
entry registers the same canonical name string (as name or alias) — with no
filter the flag is reachable: looking up its canonical name yields its slot,
which holds the flag. -/
theorem C5_amended (fs : List FlagInfo) (V : String) (i : Nat) (f : FlagInfo)
    (hf : fs[i]? = some f) (hv : V ∉ f.bazel_versions) :
    (∀ k, (BazelFlags.from_flags fs (some V)).flags_by_name k ≠ some i) ∧
    (∀ k, (BazelFlags.from_flags fs (some V)).flags_by_abbreviation k ≠ some i) ∧
    (∀ c l, cmdLookup (BazelFlags.from_flags fs (some V)).flags_by_commands c =
      some l → i ∉ l) ∧
    (BazelFlags.from_flags fs (some V)).flags[i]? = some f ∧
    ((∀ j g, fs[j]? = some g →
        (g.name = f.name ∨ g.old_name = some f.name) → j = i) →
      (BazelFlags.from_flags fs none).flags_by_name f.name = some i ∧
      (BazelFlags.from_flags fs none).flags[i]? = some f) := by
  have hfail : passesFilter (some V) f = false := by
    cases hx : passesFilter (some V) f with
    | false => rfl
    | true => exact absurd (passesFilter_some_iff.mp hx) hv
  refine ⟨?_, ?_, ?_, hf, ?_⟩
  · intro k hk
    rw [flags_by_name_from_flags] at hk
    rcases mem_nameRegsFrom.mp (lastWins_mem hk) with ⟨j, g, hj, hgpass, h2, _⟩
    have hij : i = j := by simpa using h2
    rw [← hij, hf] at hj
    injection hj with hfg
    rw [← hfg] at hgpass
    rw [hgpass] at hfail
    cases hfail
  · intro k hk
    rw [flags_by_abbrev_from_flags] at hk
    rcases mem_abbrevRegsFrom.mp (lastWins_mem hk) with ⟨j, g, hj, hgpass, h2, _⟩
    have hij : i = j := by simpa using h2
    rw [← hij, hf] at hj
    injection hj with hfg
    rw [← hfg] at hgpass
    rw [hgpass] at hfail
    cases hfail
  · intro c l hcl hmem
    obtain ⟨j, g, hj, hgpass, hxj⟩ :=
      slot_in_from_flags_cmds (cmdLookup_mem hcl) hmem
    rw [← hxj, hf] at hj
    injection hj with hfg
    rw [← hfg] at hgpass
    rw [hgpass] at hfail
    cases hfail
  · intro huniq
    exact ⟨name_map_unique fs none i f f.name hf rfl rfl
      (fun j g hj _ hng => huniq j g hj hng), hf⟩

/-- C5, witness: the amended theorem applied to the singleton catalog
`[fx0]` with filter version `2.0` (which `fx0` does not support), with the
inner uniqueness hypothesis of the reachability clause also discharged. -/
theorem C5_witness :
    (∀ k, (BazelFlags.from_flags [fx0] (some "2.0")).flags_by_name k ≠ some 0) ∧
    (∀ k, (BazelFlags.from_flags [fx0] (some "2.0")).flags_by_abbreviation k ≠
      some 0) ∧
    (∀ c l, cmdLookup (BazelFlags.from_flags [fx0]
      (some "2.0")).flags_by_commands c = some l → 0 ∉ l) ∧
    (BazelFlags.from_flags [fx0] (some "2.0")).flags[0]? = some fx0 ∧
    (BazelFlags.from_flags [fx0] none).flags_by_name fx0.name = some 0 ∧
    (BazelFlags.from_flags [fx0] none).flags[0]? = some fx0 := by
  obtain ⟨h1, h2, h3, h4, h5⟩ := C5_amended [fx0] "2.0" 0 fx0 rfl (by decide)
  refine ⟨h1, h2, h3, h4, ?_, ?_⟩
  · exact (h5 (by
      intro j g hj hng
      cases j with
      | zero => rfl
      | succ j =>
        rw [List.getElem?_cons_succ] at hj
        simp at hj)).1
  · exact rfl

/-- C6, counterexample: the indexed flag `nokeep` with abbreviation `k`
refutes the claim: `-k` resolves to `(Abbreviation, nokeep-flag)`, but the
canonical-name lookup `--nokeep` strips the `no` prefix, looks up `keep`,
and returns no match — so the abbreviation does not resolve to the same
flag as the canonical-name lookup. -/
theorem C6_cex :
    (BazelFlags.from_flags [noKeepFlag] none).get_by_invocation "-k" =
      some (FlagLookupType.Abbreviation, noKeepFlag) ∧
    (BazelFlags.from_flags [noKeepFlag] none).get_by_invocation "--nokeep" =
      none := by
  decide

/-- C6 (amended): for an indexed flag `f` with abbreviation `A` (not starting
with `-`, not ending in `=`, uniquely registered), `-A` returns the
Abbreviation classification with `f`, consulting only the abbreviation map;
and whenever its canonical name `N` additionally satisfies the conditions of
amended C1, `--N` returns the Normal classification with the same `f`. -/
theorem C6_amended (fs : List FlagInfo) (ver : Option String) (i : Nat)
    (f : FlagInfo) (A : String)
    (hf : fs[i]? = some f) (hp : passesFilter ver f = true)
    (hA : f.abbreviation = some A)
    (hhA : A.data.head? ≠ some '-') (heqA : A.data.getLast? ≠ some '=')
    (huniqA : ∀ j g, fs[j]? = some g → passesFilter ver g = true →
      g.abbreviation = some A → j = i) :
    (BazelFlags.from_flags fs ver).get_by_invocation ("-" ++ A) =
      some (FlagLookupType.Abbreviation, f) ∧
    (∀ N, f.name = N → N.data.head? ≠ some '-' → stripStart "no" N = none →
      N.data.getLast? ≠ some '=' → f.old_name ≠ some N →
      (∀ j g, fs[j]? = some g → passesFilter ver g = true →
        (g.name = N ∨ g.old_name = some N) → j = i) →
      (BazelFlags.from_flags fs ver).get_by_invocation ("--" ++ N) =
        some (FlagLookupType.Normal, f)) := by
  constructor
  · exact resolve_short _ _ _ _ hhA heqA
      (abbrev_map_unique fs ver i f A hf hp hA huniqA) hf
  · intro N hN hh hno heq hold huniq
    exact resolve_canonical_of_unique fs ver i f N hf hp hN hh hno heq hold huniq

/-- C6, witness: the amended theorem applied to the singleton catalog
`[keepGoingFlag]` with abbreviation `k`, with the inner canonical-name
clause also discharged at `keep_going`. -/
theorem C6_witness :
    (BazelFlags.from_flags [keepGoingFlag] none).get_by_invocation ("-" ++ "k") =
      some (FlagLookupType.Abbreviation, keepGoingFlag) ∧
    (BazelFlags.from_flags [keepGoingFlag] none).get_by_invocation
        ("--" ++ "keep_going") =
      some (FlagLookupType.Normal, keepGoingFlag) := by
  obtain ⟨h1, h2⟩ :=
    C6_amended [keepGoingFlag] none 0 keepGoingFlag "k" rfl rfl rfl
      (by decide) (by decide)
      (by
        intro j g hj hpass hng
        cases j with
        | zero => rfl
        | succ j =>
          rw [List.getElem?_cons_succ] at hj
          simp at hj)
  refine ⟨h1, ?_⟩
  exact h2 "keep_going" rfl (by decide) (by decide) (by decide) (by decide)
    (by
      intro j g hj hpass hng
      cases j with
      | zero => rfl
      | succ j =>
        rw [List.getElem?_cons_succ] at hj
        simp at hj)

/-- C7: an occurrence whose name resolves with the Abbreviation
classification is emitted unchanged by the merge and never absorbs the
following occurrence (so in particular `-k=opt` is passed through verbatim),
and the following occurrence is still present in the output — the head of
the merged rest keeps its name token — even if the abbreviated flag requires
a value. -/
theorem C7 (bf : BazelFlags) (flag : Flag) (rest : List Flag)
    (fn : Spanned String) (info : FlagInfo)
    (hn : flag.name = some fn)
    (hl : bf.get_by_invocation fn.1 = some (FlagLookupType.Abbreviation, info)) :
    combine_line bf (flag :: rest) = flag :: combine_line bf rest ∧
    (∀ next t, rest = next :: t →
      ∃ v t', combine_line bf rest = { name := next.name, value := v } :: t') := by
  have hpass : passThru bf flag = true := by
    simp [passThru, hn, hl]
  refine ⟨combine_line_cons_passThru bf flag rest hpass, ?_⟩
  rintro next t rfl
  exact combine_line_cons_shape bf next t

/-- C7, witness: the occurrence `-k=opt` (abbreviation with an inline value)
followed by `--jobs 200` is passed through verbatim, and the following
occurrences remain present. -/
theorem C7_witness :
    combine_line bfJobs (flagKOpt :: [flagJobsOcc, flag200]) =
      flagKOpt :: combine_line bfJobs [flagJobsOcc, flag200] ∧
    (∀ next t, [flagJobsOcc, flag200] = next :: t →
      ∃ v t', combine_line bfJobs [flagJobsOcc, flag200] =
        { name := next.name, value := v } :: t') :=
  C7 bfJobs flagKOpt [flagJobsOcc, flag200] ("-k", ⟨0, 2⟩) keepGoingFlag rfl
    (by decide)

/-- C8, counterexample: for the catalog containing a flag whose canonical
name is the empty string, resolving `--` finds that flag (after stripping
`--` the remainder is the empty string, which is in the name map), so the
result is not `none` for every catalog. -/
theorem C8_cex :
    (BazelFlags.from_flags [emptyNameFlag] none).get_by_invocation "--" ≠
      none := by
  decide

/-- C8 (amended): `resolve "---x"` and `resolve "plain"` return no match on
every index, unconditionally; `resolve "--"` returns no match provided the
name map has no entry for the empty string (e.g. no indexed flag has the
empty string as canonical name or alias). -/
theorem C8_amended (bf : BazelFlags) :
    bf.get_by_invocation "---x" = none ∧
    bf.get_by_invocation "plain" = none ∧
    (bf.flags_by_name "" = none → bf.get_by_invocation "--" = none) := by
  refine ⟨rfl, rfl, ?_⟩
  intro h
  have hrepr : bf.get_by_invocation "--" = (bf.flags_by_name "").map
      (fun i =>
        let flag := (bf.flags[i]?).get!
        let is_old := flag.old_name.isSome && flag.old_name == some ""
        (if is_old then FlagLookupType.OldName else FlagLookupType.Normal,
          flag)) := rfl
  rw [hrepr, h]
  rfl

/-- C8, witness: the amended theorem applied to the index built from
`[jobsFlag]`, with the empty-string side condition of the `--` clause also
discharged. -/
theorem C8_witness :
    (BazelFlags.from_flags [jobsFlag] none).get_by_invocation "---x" = none ∧
    (BazelFlags.from_flags [jobsFlag] none).get_by_invocation "plain" = none ∧
    (BazelFlags.from_flags [jobsFlag] none).get_by_invocation "--" = none := by
  obtain ⟨h1, h2, h3⟩ := C8_amended (BazelFlags.from_flags [jobsFlag] none)
  exact ⟨h1, h2, h3 (by decide)⟩

/-- C9: the name map of a built index is exactly the last-write-wins reading
of the registration sequence in catalog order: `nameRegsFrom` lists, for each
indexed flag in catalog order, its canonical name first and then its alias,
and `lastWins` returns the slot of the registration performed last. Hence
canonical and alias names are registered in one map, and when two
registrations share a name string the later one wins. -/
theorem C9 (fs : List FlagInfo) (ver : Option String) (k : String) :
    (BazelFlags.from_flags fs ver).flags_by_name k =
      lastWins (nameRegsFrom ver 0 fs) k :=
  flags_by_name_from_flags fs ver k

/-- C10: every slot stored in the name map, the abbreviation map, or any
sub-command slot list of a built index is a valid index into the owned flag
list, and consequently every successful resolution returns a flag definition
that is a genuine member of the owned flag list (the internal `unwrap`
never fails); resolution itself is total. -/
theorem C10 (fs : List FlagInfo) (ver : Option String) :
    (∀ k i, (BazelFlags.from_flags fs ver).flags_by_name k = some i →
      i < (BazelFlags.from_flags fs ver).flags.length) ∧
    (∀ k i, (BazelFlags.from_flags fs ver).flags_by_abbreviation k = some i →
      i < (BazelFlags.from_flags fs ver).flags.length) ∧
    (∀ c l i, cmdLookup (BazelFlags.from_flags fs ver).flags_by_commands c =
      some l → i ∈ l → i < (BazelFlags.from_flags fs ver).flags.length) ∧
    (∀ s p, (BazelFlags.from_flags fs ver).get_by_invocation s = some p →
      p.2 ∈ (BazelFlags.from_flags fs ver).flags) := by
  have hname : ∀ k i, (BazelFlags.from_flags fs ver).flags_by_name k = some i →
      i < fs.length := by
    intro k i h
    rw [flags_by_name_from_flags] at h
    rcases mem_nameRegsFrom.mp (lastWins_mem h) with ⟨j, g, hj, _, h2, _⟩
    have hij : i = j := by simpa using h2
    have hjlen : j < fs.length := (List.getElem?_eq_some_iff.mp hj).1
    omega
  have habbrev : ∀ k i,
      (BazelFlags.from_flags fs ver).flags_by_abbreviation k = some i →
      i < fs.length := by
    intro k i h
    rw [flags_by_abbrev_from_flags] at h
    rcases mem_abbrevRegsFrom.mp (lastWins_mem h) with ⟨j, g, hj, _, h2, _⟩
    have hij : i = j := by simpa using h2
    have hjlen : j < fs.length := (List.getElem?_eq_some_iff.mp hj).1
    omega
  have hmem : ∀ i, i < fs.length →
      ((BazelFlags.from_flags fs ver).flags[i]?).get! ∈
        (BazelFlags.from_flags fs ver).flags := by
    intro i hi
    show (fs[i]?).get! ∈ fs
    rw [List.getElem?_eq_getElem hi]
    show fs[i] ∈ fs
    exact List.getElem_mem hi
  refine ⟨hname, habbrev, ?_, ?_⟩
  · intro c l i hcl hil
    obtain ⟨j, g, hj, _, hij⟩ :=
      slot_in_from_flags_cmds (cmdLookup_mem hcl) hil
    have hjlen : j < fs.length := (List.getElem?_eq_some_iff.mp hj).1
    show i < fs.length
    omega
  · intro s p hres
    unfold BazelFlags.get_by_invocation at hres
    cases h1 : stripStart "--" (stripEq s) with
    | some long_name =>
      simp only [h1] at hres
      by_cases hd : long_name.data.head? = some '-'
      · rw [if_pos hd] at hres
        cases hres
      · rw [if_neg hd] at hres
        cases hlk : (BazelFlags.from_flags fs ver).flags_by_name
            ((stripStart "no" long_name).getD long_name) with
        | none =>
          rw [hlk] at hres
          cases hres
        | some i =>
          rw [hlk] at hres
          simp only [Option.map_some'] at hres
          have hi : i < fs.length := hname _ _ hlk
          injection hres with hp
          rw [← hp]
          exact hmem i hi
    | none =>
      simp only [h1] at hres
      cases h2 : stripStart "-" (stripEq s) with
      | some abbr =>
        simp only [h2] at hres
        by_cases hd : abbr.data.head? = some '-'
        · rw [if_pos hd] at hres
          cases hres
        · rw [if_neg hd] at hres
          cases hlk : (BazelFlags.from_flags fs ver).flags_by_abbreviation abbr with
          | none =>
            rw [hlk] at hres
            cases hres
          | some i =>
            rw [hlk] at hres
            simp only [Option.map_some'] at hres
            have hi : i < fs.length := habbrev _ _ hlk
            injection hres with hp
            rw [← hp]
            exact hmem i hi
      | none =>
        simp only [h2] at hres
        cases hres

/-- C10, witness: the bounds and resolution-membership property at the
concrete two-flag catalog. -/
theorem C10_witness :
    (∀ k i, (BazelFlags.from_flags [jobsFlag, keepGoingFlag]
        none).flags_by_name k = some i →
      i < (BazelFlags.from_flags [jobsFlag, keepGoingFlag] none).flags.length) ∧
    (∀ k i, (BazelFlags.from_flags [jobsFlag, keepGoingFlag]
        none).flags_by_abbreviation k = some i →
      i < (BazelFlags.from_flags [jobsFlag, keepGoingFlag] none).flags.length) ∧
    (∀ c l i, cmdLookup (BazelFlags.from_flags [jobsFlag, keepGoingFlag]
        none).flags_by_commands c = some l → i ∈ l →
      i < (BazelFlags.from_flags [jobsFlag, keepGoingFlag] none).flags.length) ∧
    (∀ s p, (BazelFlags.from_flags [jobsFlag, keepGoingFlag]
        none).get_by_invocation s = some p →
      p.2 ∈ (BazelFlags.from_flags [jobsFlag, keepGoingFlag] none).flags) :=
  C10 [jobsFlag, keepGoingFlag] none

/-- C4, witness: the common/always lists at the concrete two-flag catalog. -/
theorem C4_witness :
    cmdLookup (BazelFlags.from_flags [jobsFlag, keepGoingFlag]
        none).flags_by_commands "common" =
      some (commonList [jobsFlag, keepGoingFlag] none) ∧
    cmdLookup (BazelFlags.from_flags [jobsFlag, keepGoingFlag]
        none).flags_by_commands "always" =
      cmdLookup (BazelFlags.from_flags [jobsFlag, keepGoingFlag]
        none).flags_by_commands "common" ∧
    (commonList [jobsFlag, keepGoingFlag] none).Sorted (· ≤ ·) ∧
    (commonList [jobsFlag, keepGoingFlag] none).Nodup ∧
    (∀ x, x ∈ commonList [jobsFlag, keepGoingFlag] none ↔
      ∃ q ∈ (indexFlags none 0 [jobsFlag, keepGoingFlag]
        initAcc).flags_by_commands, x ∈ q.2) :=
  C4 [jobsFlag, keepGoingFlag] none

/-- C9, witness: the last-write-wins reading at the concrete catalog. -/
theorem C9_witness :
    (BazelFlags.from_flags [jobsFlag, keepGoingFlag] none).flags_by_name "jobs" =
      lastWins (nameRegsFrom none 0 [jobsFlag, keepGoingFlag]) "jobs" :=
  C9 [jobsFlag, keepGoingFlag] none "jobs"

end Bazelrc
